import Mathlib

/-!
# Verification of the timestamp-compression codecs

Shallow embedding of the encoding functions of the `tz-compr` repository
(`time_converter.js`, `enhanced_compression.js`, `benchmark.js`) together with
decoders modelled from the specification (the source defines only encoders),
and proofs of the specified properties.

Conventions of the embedding:
* JavaScript numbers are modelled as `Int` (all values involved are integers
  well below 2^53, where JS arithmetic is exact).
* `Math.floor(a / b)` is `Int.fdiv`, the JS remainder operator `%` is
  `Int.tmod` (sign of the dividend).
* Indexing a JS string out of range yields `undefined`, and concatenating
  `undefined` into a string yields the text `"undefined"`; `jsCharAt` models
  exactly that.
* The do-while encoding loops run a number of iterations bounded by the input,
  so they are embedded with an explicit fuel argument that is provably
  sufficient (`jsEncodeFuel_irrel`), keeping every definition structurally
  recursive and kernel-computable.
* The process-local timezone used by `millisecondsToDaysAndTime` (via
  `new Date(...)` local-midnight arithmetic) is modelled as a fixed UTC offset
  `tzOffset` in milliseconds, passed explicitly; `tzOffset = 0` is UTC.
-/

/-- `24 * 60 * 60 * 1000`, the `MS_PER_DAY` constant of the source. -/
def MS_PER_DAY : Int := 24 * 60 * 60 * 1000

/-- The Base36 alphabet literal of `compressMillisCustom` (`time_converter.js`). -/
def chars36 : List Char := "0123456789abcdefghijklmnopqrstuvwxyz".data

/-- The Base62 alphabet literal, repeated inline across the source files. -/
def chars62 : List Char :=
  "0123456789abcdefghijklmnopqrstuvwxyzABCDEFGHIJKLMNOPQRSTUVWXYZ".data

/-- The alphabet literal of `compressMillisBase94` (`enhanced_compression.js`):
the source comments call it 94 printable ASCII characters, excluding space,
double-quote, single-quote, backslash and backtick. -/
def chars94 : List Char :=
  "0123456789abcdefghijklmnopqrstuvwxyzABCDEFGHIJKLMNOPQRSTUVWXYZ!#$%&()*+,-./:;<=>?@[]^_\x7b|\x7d~".data

/-- JS string indexing `chars[i]` followed by string concatenation: an index in
range contributes the single character, an out-of-range index contributes the
text `"undefined"` (because `chars[i]` is `undefined` and `undefined + s`
coerces to `"undefined" + s`). -/
def jsCharAt (chars : List Char) (i : Int) : List Char :=
  if 0 ≤ i ∧ i.toNat < chars.length then [chars.getD i.toNat '?'] else "undefined".data

/-- The do-while digit loop shared by every codec of the source:
`do { result = chars[number % base] + result; number = Math.floor(number / base); }
while (number > 0);` — one recursive call per iteration, with `fuel` bounding
the number of iterations (sufficient fuel is supplied by `jsEncodeList` and
proved irrelevant in `jsEncodeFuel_irrel`). -/
def jsEncodeFuel (chars : List Char) : Nat → Int → List Char
  | 0, _ => []
  | fuel + 1, number =>
    (if 0 < Int.fdiv number (chars.length : Int) then
        jsEncodeFuel chars fuel (Int.fdiv number (chars.length : Int))
      else []) ++ jsCharAt chars (Int.tmod number (chars.length : Int))

/-- The digit loop with its provably sufficient fuel. -/
def jsEncodeList (chars : List Char) (number : Int) : List Char :=
  jsEncodeFuel chars (number.toNat + 1) number

/-- `compressMillisBase62` of `time_converter.js` / `benchmark.js` /
`enhanced_compression.js` (the helper for delta encoding): the digit loop with
the Base62 alphabet. -/
def compressMillisBase62 (millis : Int) : String :=
  String.mk (jsEncodeList chars62 millis)

/-- `compressMillisCustom` of `time_converter.js`: the digit loop with the
Base36 alphabet. -/
def compressMillisCustom (millis : Int) : String :=
  String.mk (jsEncodeList chars36 millis)

/-- `compressMillisBase94` of `enhanced_compression.js`. -/
def compressMillisBase94 (millis : Int) : String :=
  String.mk (jsEncodeList chars94 millis)

/-- `compressMillisVariable` of `enhanced_compression.js`: sign character for
`diff = millis - referenceDate`, then the Base62 digit loop on `Math.abs(diff)`.
The source gives `referenceDate` the default value 1577836800000 (Jan 1 2020);
`compressMillisVariableDefault` applies that default. -/
def compressMillisVariable (millis : Int) (referenceDate : Int) : String :=
  let diff := millis - referenceDate
  let sign : Char := if 0 ≤ diff then '+' else '-'
  String.mk (sign :: jsEncodeList chars62 |diff|)

/-- `compressMillisVariable` at its default reference date (Jan 1 2020). -/
def compressMillisVariableDefault (millis : Int) : String :=
  compressMillisVariable millis 1577836800000

/-- `millisecondsToDaysAndTime` of `time_converter.js`:
`daysSinceEpoch = Math.floor((date - epoch) / MS_PER_DAY)` (and `date - epoch`
is just `millis`), and `millisSinceMidnight = date - midnight` where `midnight`
is the start of the *local* calendar day.  The local timezone is modelled as
the fixed offset `tzOffset` (milliseconds east of UTC), under which the local
midnight preceding `millis` is `MS_PER_DAY * ((millis + tzOffset).fdiv MS_PER_DAY) - tzOffset`,
so the milliseconds since midnight are `(millis + tzOffset) % MS_PER_DAY`
(Euclidean remainder, always in `[0, MS_PER_DAY)`). -/
def millisecondsToDaysAndTime (tzOffset millis : Int) : Int × Int :=
  (Int.fdiv millis MS_PER_DAY, (millis + tzOffset) % MS_PER_DAY)

/-- `compressSplitDaysTime` of `time_converter.js`: Base62 digit loop on each
component of `millisecondsToDaysAndTime`, joined by `":"`. -/
def compressSplitDaysTime (tzOffset millis : Int) : String :=
  let p := millisecondsToDaysAndTime tzOffset millis
  String.mk (jsEncodeList chars62 p.1 ++ ':' :: jsEncodeList chars62 p.2)

/-- The `for` loop of `compressTimestampSeries`: for each element after the
first, emit the sign of `delta = timestamps[i] - prev` followed by the Base62
digit loop on `Math.abs(delta)`. -/
def seriesLoop (prev : Int) : List Int → List Char
  | [] => []
  | t :: rest =>
    ((if 0 ≤ t - prev then '+' else '-') :: jsEncodeList chars62 |t - prev|) ++
      seriesLoop t rest

/-- `compressTimestampSeries` of `enhanced_compression.js`: empty input yields
`''`; otherwise the first timestamp is encoded with `compressMillisBase62` and
each subsequent one as a signed Base62 delta. -/
def compressTimestampSeries (timestamps : List Int) : String :=
  match timestamps with
  | [] => ""
  | t0 :: rest => String.mk (jsEncodeList chars62 t0 ++ seriesLoop t0 rest)

/-- The standard base64 alphabet used by Node's `buffer.toString('base64')`. -/
def base64Alphabet : List Char :=
  "ABCDEFGHIJKLMNOPQRSTUVWXYZabcdefghijklmnopqrstuvwxyz0123456789+/".data

/-- Character of the base64 alphabet at a sextet value. -/
def b64char (n : Nat) : Char := base64Alphabet.getD n '?'

/-- Standard base64 rendering of a byte list (bytes as `Nat < 256`), with `=`
padding, as produced by Node's `buffer.toString('base64')`. -/
def base64encode : List Nat → List Char
  | [] => []
  | [b1] => [b64char (b1 / 4), b64char (b1 % 4 * 16), '=', '=']
  | [b1, b2] => [b64char (b1 / 4), b64char (b1 % 4 * 16 + b2 / 16), b64char (b2 % 16 * 4), '=']
  | b1 :: b2 :: b3 :: rest =>
    b64char (b1 / 4) :: b64char (b1 % 4 * 16 + b2 / 16) ::
      b64char (b2 % 16 * 4 + b3 / 64) :: b64char (b3 % 64) :: base64encode rest

/-- The 6-byte buffer of `compressMillisBitPacked`: `writeUInt16BE(days, 0)`
and `writeUInt32BE(msInDay, 2)`, big-endian. -/
def packBytes (days msInDay : Nat) : List Nat :=
  [days / 256, days % 256,
   msInDay / 16777216, msInDay / 65536 % 256, msInDay / 256 % 256, msInDay % 256]

/-- `compressMillisBitPacked` of `enhanced_compression.js`.  Node's
`writeUInt16BE` / `writeUInt32BE` throw a `RangeError` when the value is
negative (which happens exactly when `millis < 0`, since the branch guarantees
`days ≤ 65535` and `msInDay < MS_PER_DAY < 2^32`); the thrown exception is
modelled as `none`. -/
def compressMillisBitPacked (millis : Int) : Option String :=
  let days := Int.fdiv millis MS_PER_DAY
  let msInDay := Int.tmod millis MS_PER_DAY
  if 65535 < days then some ("F_" ++ compressMillisBase62 millis)
  else if 0 ≤ days ∧ 0 ≤ msInDay then
    some (String.mk (base64encode (packBytes days.toNat msInDay.toNat)))
  else none

/-! ## Decoders

The source defines only encoders; §9 of the specification states that decode
logic is inferred from the encoding algorithm's invertibility.  Every decoder
below is therefore modelled from the specification text of §4, as the exact
inverse of the corresponding documented encode procedure, with failures
(`InvalidCharacter`, `InvalidFormat`, `InvalidLength`) modelled as `none`. -/

/-- Modelled from the spec (§4.1 Decode): position of a character in the
alphabet; a character absent from the alphabet is `InvalidCharacter`. -/
def digitIndex (chars : List Char) (c : Char) : Option Nat :=
  if c ∈ chars then some (chars.indexOf c) else none

/-- Modelled from the spec (§4.1 Decode): positional decode of a digit string,
most-significant digit first; fails on any character absent from the
alphabet. -/
def decodeAlphabet (chars : List Char) (cs : List Char) : Option Nat :=
  cs.foldl (fun acc c => acc.bind fun a => (digitIndex chars c).map
    fun i => a * chars.length + i) (some 0)

/-- Modelled from the spec (§4.2): Base36 direct decode. -/
def decodeBase36 (s : String) : Option Int :=
  (decodeAlphabet chars36 s.data).map Int.ofNat

/-- Modelled from the spec (§4.2): Base62 direct decode. -/
def decodeBase62 (s : String) : Option Int :=
  (decodeAlphabet chars62 s.data).map Int.ofNat

/-- Modelled from the spec (§4.2): Base94 direct decode. -/
def decodeBase94 (s : String) : Option Int :=
  (decodeAlphabet chars94 s.data).map Int.ofNat

/-- Modelled from the spec (§4.3 Decode): parse the sign character, decode the
remainder as Base62, apply the sign and add the reference epoch; a missing or
bad sign character is `InvalidFormat`. -/
def decodeVariable (referenceDate : Int) (s : String) : Option Int :=
  match s.data with
  | [] => none
  | c :: rest =>
    if c = '+' then (decodeAlphabet chars62 rest).map fun m => (m : Int) + referenceDate
    else if c = '-' then (decodeAlphabet chars62 rest).map fun m => referenceDate - (m : Int)
    else none

/-- Modelled from the spec (§4.4 Decode): split on the first `:`, decode each
side as Base62, and reconstruct the timestamp from the day count and the local
milliseconds-since-midnight, adjusted for the local-day definition used at
encode time (the fixed offset `tzOffset`); a missing separator is
`InvalidFormat`. -/
def decodeSplit (tzOffset : Int) (s : String) : Option Int :=
  let daysPart := s.data.takeWhile fun c => decide (c ≠ ':')
  match s.data.dropWhile fun c => decide (c ≠ ':') with
  | ':' :: timePart =>
    (decodeAlphabet chars62 daysPart).bind fun days =>
      (decodeAlphabet chars62 timePart).map fun ms =>
        (days : Int) * MS_PER_DAY + ((ms : Int) - tzOffset) % MS_PER_DAY
  | _ => none

/-- Whether the string carries the `F_` fallback marker of
`compressMillisBitPacked` (the spec requires checking for the marker prefix
before attempting fixed-width decode). -/
def startsWithFMarker (s : String) : Bool :=
  decide (s.data.take 2 = ['F', '_'])

/-- Modelled from the spec: inverse of the standard base64 rendering; fails on
characters outside the base64 alphabet, misplaced padding, or a length that is
not a multiple of four. -/
def base64decode : List Char → Option (List Nat)
  | [] => some []
  | c1 :: c2 :: c3 :: c4 :: rest =>
    (digitIndex base64Alphabet c1).bind fun i1 =>
    (digitIndex base64Alphabet c2).bind fun i2 =>
    if c3 = '=' then
      if c4 = '=' ∧ rest = [] then some [i1 * 4 + i2 / 16] else none
    else
      (digitIndex base64Alphabet c3).bind fun i3 =>
      if c4 = '=' then
        if rest = [] then some [i1 * 4 + i2 / 16, i2 % 16 * 16 + i3 / 4] else none
      else
        (digitIndex base64Alphabet c4).bind fun i4 =>
        (base64decode rest).map fun bs =>
          (i1 * 4 + i2 / 16) :: (i2 % 16 * 16 + i3 / 4) :: (i3 % 4 * 64 + i4) :: bs
  | _ => none

/-- Modelled from the spec (§4.5 Decode): check for the `F_` marker first and
decode the remainder as Base62; otherwise base64-decode, fail with
`InvalidLength` unless exactly 6 bytes, read the two big-endian fields and
reconstruct `days * 86400000 + msInDay`. -/
def decodeBitPacked (s : String) : Option Int :=
  if startsWithFMarker s then
    (decodeAlphabet chars62 (s.data.drop 2)).map Int.ofNat
  else
    (base64decode s.data).bind fun bytes =>
      match bytes with
      | [b1, b2, b3, b4, b5, b6] =>
        some (((b1 * 256 + b2 : Nat) : Int) * MS_PER_DAY +
          ((b3 * 16777216 + b4 * 65536 + b5 * 256 + b6 : Nat) : Int))
      | _ => none

/-- Whether a character belongs to the Base62 alphabet (digit continuation in
the greedy sequence parse). -/
def isB62 (c : Char) : Bool := decide (c ∈ chars62)

/-- Modelled from the spec (§4.6 Decode): after the first value, repeatedly
read one sign character followed by the maximal Base62 run as each subsequent
delta; a malformed delta run is `InvalidFormat`.  `fuel` bounds the number of
entries (each consumes at least one character, so the input length suffices;
see `parseDeltasFuel_irrel`). -/
def parseDeltasFuel : Nat → Int → List Char → Option (List Int)
  | _, _, [] => some []
  | 0, _, _ :: _ => none
  | fuel + 1, prev, c :: rest =>
    if c = '+' ∨ c = '-' then
      let run := rest.takeWhile isB62
      if run.isEmpty then none
      else
        (decodeAlphabet chars62 run).bind fun mag =>
          let v := if c = '+' then prev + (mag : Int) else prev - (mag : Int)
          (parseDeltasFuel fuel v (rest.dropWhile isB62)).map fun tail => v :: tail
    else none

/-- Modelled from the spec (§4.6 Decode): read the leading maximal Base62 run
as the first value, then parse the signed delta runs greedily; the empty
string decodes to the empty series (mirroring `Empty input yields the empty
string` on encode). -/
def decodeSeries (s : String) : Option (List Int) :=
  if s.data.isEmpty then some []
  else
    let run := s.data.takeWhile isB62
    if run.isEmpty then none
    else
      (decodeAlphabet chars62 run).bind fun v =>
        (parseDeltasFuel (s.data.dropWhile isB62).length (v : Int)
            (s.data.dropWhile isB62)).map fun tail => (v : Int) :: tail

/-! ## Specification-side companions used in the statements -/

/-- Modelled from the spec (§4.6 encode description): the expected tail of a
sequence encoding — for each element after the first, a sign character
(`+` for a non-negative delta, `-` otherwise) followed by the Base62 encoding
of the delta's absolute value, concatenated with no separator. -/
def seriesSpecDeltas (prev : Int) : List Int → String
  | [] => ""
  | t :: ts =>
    ((if 0 ≤ t - prev then "+" else "-") ++ compressMillisBase62 |t - prev|) ++
      seriesSpecDeltas t ts

/-- The numeric value of a big-endian digit list in base `B` (the proof-side
companion of `decodeAlphabet`, on plain digit values). -/
def valBE (B : Nat) (l : List Nat) : Nat :=
  l.foldl (fun a d => a * B + d) 0

/-- Lexicographic comparison of two encoded strings under the *alphabet's
index ordering* (spec §8, monotonic alphabet ordering): each character is
replaced by its position in the alphabet, and the resulting digit lists are
compared lexicographically. -/
def alphaLexLe (chars : List Char) (s t : List Char) : Prop :=
  s.map (fun c => chars.indexOf c) = t.map (fun c => chars.indexOf c) ∨
    List.Lex (· < ·) (s.map fun c => chars.indexOf c) (t.map fun c => chars.indexOf c)

/-- Modelled from the spec (§4.2): the printable ASCII characters (codes 33 to
126) excluding double-quote, single-quote, backslash and backtick — the
character set the spec describes for the Base94 alphabet (space is already
outside the 33..126 range). -/
def printableNonReserved : List Char :=
  (((List.range 127).drop 33).map Char.ofNat).filter
    fun c => decide (c ∉ [Char.ofNat 34, Char.ofNat 39, Char.ofNat 92, Char.ofNat 96])

/-! ## Generic facts about the digit loop -/

theorem jsEncodeFuel_irrel (chars : List Char) (h2 : 2 ≤ chars.length) :
    ∀ fuel number, number.toNat < fuel →
      jsEncodeFuel chars fuel number = jsEncodeList chars number := by
  intro fuel
  induction fuel using Nat.strong_induction_on with
  | _ fuel ih =>
    intro number hlt
    match fuel, hlt with
    | f + 1, hlt =>
      show jsEncodeFuel chars (f + 1) number = jsEncodeFuel chars (number.toNat + 1) number
      simp only [jsEncodeFuel]
      by_cases hq : 0 < Int.fdiv number (chars.length : Int)
      · rw [if_pos hq, if_pos hq]
        have hB : (0 : Int) < (chars.length : Int) := by exact_mod_cast Nat.lt_of_lt_of_le Nat.zero_lt_two h2
        have hpos : 0 < number := by
          rcases lt_trichotomy number 0 with h | h | h
          · exact absurd (Int.fdiv_neg' h hB) (by omega)
          · subst h; rw [Int.zero_fdiv] at hq; omega
          · exact h
        have hn : number = ((number.toNat : Nat) : Int) := by omega
        have hfd : Int.fdiv number (chars.length : Int) = ((number.toNat / chars.length : Nat) : Int) := by
          conv_lhs => rw [hn]
          rw [← Int.ofNat_fdiv]
        have hqlt : (Int.fdiv number (chars.length : Int)).toNat < number.toNat := by
          rw [hfd]
          have h0 : 0 < number.toNat := by omega
          have := Nat.div_lt_self h0 (Nat.lt_of_lt_of_le Nat.one_lt_two h2)
          omega
        rw [ih f (Nat.lt_succ_self f) _ (by omega),
          ih number.toNat (by omega) _ hqlt]
      · rw [if_neg hq, if_neg hq]

theorem jsEncodeList_nat (chars : List Char) (h2 : 2 ≤ chars.length) (n : Nat) :
    jsEncodeList chars (n : Int) =
      (if 0 < n / chars.length then jsEncodeList chars ((n / chars.length : Nat) : Int)
        else []) ++ [chars.getD (n % chars.length) '?'] := by
  have hB : 0 < chars.length := by omega
  have ht : ((n : Int)).toNat = n := by omega
  show jsEncodeFuel chars (((n : Int)).toNat + 1) (n : Int) = _
  rw [ht]
  simp only [jsEncodeFuel]
  have hfd : Int.fdiv (n : Int) (chars.length : Int) = ((n / chars.length : Nat) : Int) :=
    (Int.ofNat_fdiv n chars.length).symm
  have htm : Int.tmod (n : Int) (chars.length : Int) = ((n % chars.length : Nat) : Int) :=
    (Int.ofNat_tmod n chars.length).symm
  rw [hfd, htm]
  have hcond : 0 ≤ ((n % chars.length : Nat) : Int) ∧
      (((n % chars.length : Nat) : Int)).toNat < chars.length := by
    constructor
    · exact Int.ofNat_nonneg _
    · have := Nat.mod_lt n hB
      omega
  simp only [jsCharAt, if_pos hcond]
  have htm2 : (((n % chars.length : Nat) : Int)).toNat = n % chars.length := by omega
  rw [htm2]
  by_cases hq : 0 < n / chars.length
  · have hqi : (0 : Int) < ((n / chars.length : Nat) : Int) := by exact_mod_cast hq
    rw [if_pos hqi, if_pos hq]
    have hn0 : 0 < n := by
      rcases Nat.eq_zero_or_pos n with h0 | h0
      · subst h0; simp at hq
      · exact h0
    have hlt : (((n / chars.length : Nat) : Int)).toNat < n := by
      have := Nat.div_lt_self hn0 (Nat.lt_of_lt_of_le Nat.one_lt_two h2)
      omega
    rw [jsEncodeFuel_irrel chars h2 n _ hlt]
  · have hqi : ¬ (0 : Int) < ((n / chars.length : Nat) : Int) := by exact_mod_cast hq
    rw [if_neg hqi, if_neg hq]

theorem getD_mem_of_lt (l : List Char) (i : Nat) (d : Char) (h : i < l.length) :
    l.getD i d ∈ l := by
  rw [List.getD_eq_getElem?_getD, List.getElem?_eq_getElem h, Option.getD_some]
  exact List.getElem_mem h

theorem mem_of_mem_jsEncodeList (chars : List Char) (h2 : 2 ≤ chars.length) :
    ∀ (n : Nat), ∀ c ∈ jsEncodeList chars (n : Int), c ∈ chars := by
  intro n
  induction n using Nat.strong_induction_on with
  | _ n ih =>
    intro c hc
    rw [jsEncodeList_nat chars h2 n] at hc
    rcases List.mem_append.1 hc with h | h
    · by_cases hq : 0 < n / chars.length
      · rw [if_pos hq] at h
        have hn0 : 0 < n := by
          rcases Nat.eq_zero_or_pos n with h0 | h0
          · subst h0; simp at hq
          · exact h0
        exact ih (n / chars.length)
          (Nat.div_lt_self hn0 (Nat.lt_of_lt_of_le Nat.one_lt_two h2)) c h
      · rw [if_neg hq] at h; simp at h
    · have hc' : c = chars.getD (n % chars.length) '?' := by simpa using h
      subst hc'
      exact getD_mem_of_lt chars _ '?' (Nat.mod_lt n (by omega))

theorem jsEncodeList_ne_nil (chars : List Char) (h2 : 2 ≤ chars.length) (n : Nat) :
    jsEncodeList chars (n : Int) ≠ [] := by
  rw [jsEncodeList_nat chars h2 n]
  simp

theorem decodeAlphabet_nil (chars : List Char) : decodeAlphabet chars [] = some 0 := rfl

theorem decodeAlphabet_append_one (chars : List Char) (l : List Char) (c : Char) :
    decodeAlphabet chars (l ++ [c]) =
      (decodeAlphabet chars l).bind fun a =>
        (digitIndex chars c).map fun i => a * chars.length + i := by
  unfold decodeAlphabet
  rw [List.foldl_append]
  rfl

theorem decodeAlphabet_jsEncodeList (chars : List Char) (h2 : 2 ≤ chars.length)
    (hidx : ∀ i, i < chars.length → digitIndex chars (chars.getD i '?') = some i) :
    ∀ n : Nat, decodeAlphabet chars (jsEncodeList chars (n : Int)) = some n := by
  intro n
  induction n using Nat.strong_induction_on with
  | _ n ih =>
    rw [jsEncodeList_nat chars h2 n, decodeAlphabet_append_one]
    have hmod : n % chars.length < chars.length := Nat.mod_lt n (by omega)
    by_cases hq : 0 < n / chars.length
    · rw [if_pos hq]
      have hn0 : 0 < n := by
        rcases Nat.eq_zero_or_pos n with h0 | h0
        · subst h0; simp at hq
        · exact h0
      rw [ih (n / chars.length) (Nat.div_lt_self hn0 (Nat.lt_of_lt_of_le Nat.one_lt_two h2))]
      show (digitIndex chars (chars.getD (n % chars.length) '?')).map
        (fun i => n / chars.length * chars.length + i) = some n
      rw [hidx _ hmod]
      exact congrArg some (Nat.div_add_mod' n chars.length)
    · rw [if_neg hq]
      have hlt : n < chars.length := by
        rcases Nat.lt_or_ge n chars.length with h | h
        · exact h
        · exact absurd (Nat.div_pos h (by omega)) hq
      rw [decodeAlphabet_nil]
      show (digitIndex chars (chars.getD (n % chars.length) '?')).map
        (fun i => 0 * chars.length + i) = some n
      rw [hidx _ hmod]
      simp [Nat.mod_eq_of_lt hlt]

/-! ## Instantiation facts for the concrete alphabets, verified by evaluation -/

theorem chars36_two_le : 2 ≤ chars36.length := by decide

theorem chars62_two_le : 2 ≤ chars62.length := by decide

theorem chars94_two_le : 2 ≤ chars94.length := by decide

theorem chars36_idx : ∀ i, i < chars36.length →
    digitIndex chars36 (chars36.getD i '?') = some i := by decide

theorem chars62_idx : ∀ i, i < chars62.length →
    digitIndex chars62 (chars62.getD i '?') = some i := by decide

theorem chars94_idx : ∀ i, i < chars94.length →
    digitIndex chars94 (chars94.getD i '?') = some i := by decide

theorem b64_idx : ∀ i, i < base64Alphabet.length →
    digitIndex base64Alphabet (base64Alphabet.getD i '?') = some i := by decide

theorem b64char_ne_underscore : ∀ i, i < 64 → b64char i ≠ '_' := by decide

theorem decode62_encode62 (n : Nat) :
    decodeAlphabet chars62 (jsEncodeList chars62 (n : Int)) = some n :=
  decodeAlphabet_jsEncodeList chars62 chars62_two_le chars62_idx n

theorem decode36_encode36 (n : Nat) :
    decodeAlphabet chars36 (jsEncodeList chars36 (n : Int)) = some n :=
  decodeAlphabet_jsEncodeList chars36 chars36_two_le chars36_idx n

theorem decode94_encode94 (n : Nat) :
    decodeAlphabet chars94 (jsEncodeList chars94 (n : Int)) = some n :=
  decodeAlphabet_jsEncodeList chars94 chars94_two_le chars94_idx n

/-! ## Round trips of the direct codecs -/

theorem roundtrip_base36 (t : Nat) :
    decodeBase36 (compressMillisCustom (t : Int)) = some (t : Int) := by
  show (decodeAlphabet chars36 (jsEncodeList chars36 (t : Int))).map Int.ofNat = _
  rw [decode36_encode36 t]
  rfl

theorem roundtrip_base62 (t : Nat) :
    decodeBase62 (compressMillisBase62 (t : Int)) = some (t : Int) := by
  show (decodeAlphabet chars62 (jsEncodeList chars62 (t : Int))).map Int.ofNat = _
  rw [decode62_encode62 t]
  rfl

theorem roundtrip_base94 (t : Nat) :
    decodeBase94 (compressMillisBase94 (t : Int)) = some (t : Int) := by
  show (decodeAlphabet chars94 (jsEncodeList chars94 (t : Int))).map Int.ofNat = _
  rw [decode94_encode94 t]
  rfl

/-! ## Round trip of the reference-relative codec -/

theorem roundtrip_variable (t ref : Int) :
    decodeVariable ref (compressMillisVariable t ref) = some t := by
  have habs : |t - ref| = (((t - ref).natAbs : Nat) : Int) := Int.abs_eq_natAbs _
  by_cases h : 0 ≤ t - ref
  · have he : compressMillisVariable t ref =
        String.mk ('+' :: jsEncodeList chars62 (((t - ref).natAbs : Nat) : Int)) := by
      simp only [compressMillisVariable, if_pos h, habs]
    rw [he]
    show (if '+' = '+' then
        (decodeAlphabet chars62 (jsEncodeList chars62 (((t - ref).natAbs : Nat) : Int))).map
          fun m => (m : Int) + ref
      else if '+' = '-' then
        (decodeAlphabet chars62 (jsEncodeList chars62 (((t - ref).natAbs : Nat) : Int))).map
          fun m => ref - (m : Int)
      else none) = some t
    rw [if_pos rfl, decode62_encode62]
    show some (((t - ref).natAbs : Int) + ref) = some t
    congr 1
    omega
  · have he : compressMillisVariable t ref =
        String.mk ('-' :: jsEncodeList chars62 (((t - ref).natAbs : Nat) : Int)) := by
      simp only [compressMillisVariable, if_neg h, habs]
    rw [he]
    show (if '-' = '+' then
        (decodeAlphabet chars62 (jsEncodeList chars62 (((t - ref).natAbs : Nat) : Int))).map
          fun m => (m : Int) + ref
      else if '-' = '-' then
        (decodeAlphabet chars62 (jsEncodeList chars62 (((t - ref).natAbs : Nat) : Int))).map
          fun m => ref - (m : Int)
      else none) = some t
    rw [if_neg (by decide), if_pos rfl, decode62_encode62]
    show some (ref - ((t - ref).natAbs : Int)) = some t
    congr 1
    omega

/-! ## Round trip of the split day/time codec -/

theorem colon_not_mem_chars62 : ':' ∉ chars62 := by decide

theorem jsEncodeList62_ne_colon (n : Nat) :
    ∀ c ∈ jsEncodeList chars62 (n : Int), (fun c => decide (c ≠ ':')) c = true := by
  intro c hc
  have hmem : c ∈ chars62 := mem_of_mem_jsEncodeList chars62 chars62_two_le n c hc
  have : c ≠ ':' := fun h => colon_not_mem_chars62 (h ▸ hmem)
  simpa using this

theorem roundtrip_split (tz : Int) (t : Nat) :
    decodeSplit tz (compressSplitDaysTime tz (t : Int)) = some (t : Int) := by
  have hD : MS_PER_DAY = ((86400000 : Nat) : Int) := by decide
  have hdays : Int.fdiv (t : Int) MS_PER_DAY = ((t / 86400000 : Nat) : Int) := by
    rw [hD, ← Int.ofNat_fdiv]
  have hm0 : 0 ≤ ((t : Int) + tz) % MS_PER_DAY := Int.emod_nonneg _ (by decide)
  have hmn : ((((t : Int) + tz) % MS_PER_DAY).toNat : Int) = ((t : Int) + tz) % MS_PER_DAY := by
    omega
  have he : compressSplitDaysTime tz (t : Int) =
      String.mk (jsEncodeList chars62 ((t / 86400000 : Nat) : Int) ++
        ':' :: jsEncodeList chars62 (((((t : Int) + tz) % MS_PER_DAY).toNat : Nat) : Int)) := by
    simp only [compressSplitDaysTime, millisecondsToDaysAndTime]
    rw [hdays, hmn]
  rw [he]
  simp only [decodeSplit]
  rw [List.takeWhile_append_of_pos (jsEncodeList62_ne_colon _),
    List.dropWhile_append_of_pos (jsEncodeList62_ne_colon _),
    List.takeWhile_cons_of_neg (by decide), List.dropWhile_cons_of_neg (by decide),
    List.append_nil]
  show (decodeAlphabet chars62 (jsEncodeList chars62 ((t / 86400000 : Nat) : Int))).bind
      (fun days => (decodeAlphabet chars62 (jsEncodeList chars62
          (((((t : Int) + tz) % MS_PER_DAY).toNat : Nat) : Int))).map
        fun ms => (days : Int) * MS_PER_DAY + ((ms : Int) - tz) % MS_PER_DAY) = some (t : Int)
  rw [decode62_encode62, decode62_encode62]
  show some (((t / 86400000 : Nat) : Int) * MS_PER_DAY +
      (((((t : Int) + tz) % MS_PER_DAY).toNat : Int) - tz) % MS_PER_DAY) = some (t : Int)
  congr 1
  have hdiv : ((t / 86400000 : Nat) : Int) = (t : Int) / 86400000 := Int.ofNat_ediv t 86400000
  rw [hmn, hdiv, hD]
  omega

/-! ## Round trip of the fixed-width binary codec -/

theorem b64char_ne_pad : ∀ i, i < 64 → b64char i ≠ '=' := by decide

theorem b64char_spell (i : Nat) (h : i < 64) :
    digitIndex base64Alphabet (b64char i) = some i :=
  b64_idx i (by
    have h64 : base64Alphabet.length = 64 := by decide
    omega)

theorem base64_roundtrip_six (b1 b2 b3 b4 b5 b6 : Nat)
    (h1 : b1 < 256) (h2 : b2 < 256) (h3 : b3 < 256)
    (h4 : b4 < 256) (h5 : b5 < 256) (h6 : b6 < 256) :
    base64decode (base64encode [b1, b2, b3, b4, b5, b6]) = some [b1, b2, b3, b4, b5, b6] := by
  show base64decode
      (b64char (b1 / 4) :: b64char (b1 % 4 * 16 + b2 / 16) ::
        b64char (b2 % 16 * 4 + b3 / 64) :: b64char (b3 % 64) ::
        (b64char (b4 / 4) :: b64char (b4 % 4 * 16 + b5 / 16) ::
          b64char (b5 % 16 * 4 + b6 / 64) :: b64char (b6 % 64) :: [])) =
    some [b1, b2, b3, b4, b5, b6]
  simp only [base64decode,
    b64char_spell _ (by omega : b1 / 4 < 64),
    b64char_spell _ (by omega : b1 % 4 * 16 + b2 / 16 < 64),
    b64char_spell _ (by omega : b2 % 16 * 4 + b3 / 64 < 64),
    b64char_spell _ (by omega : b3 % 64 < 64),
    b64char_spell _ (by omega : b4 / 4 < 64),
    b64char_spell _ (by omega : b4 % 4 * 16 + b5 / 16 < 64),
    b64char_spell _ (by omega : b5 % 16 * 4 + b6 / 64 < 64),
    b64char_spell _ (by omega : b6 % 64 < 64),
    Option.some_bind,
    if_neg (b64char_ne_pad _ (by omega : b2 % 16 * 4 + b3 / 64 < 64)),
    if_neg (b64char_ne_pad _ (by omega : b3 % 64 < 64)),
    if_neg (b64char_ne_pad _ (by omega : b5 % 16 * 4 + b6 / 64 < 64)),
    if_neg (b64char_ne_pad _ (by omega : b6 % 64 < 64)),
    Option.map_some']
  refine congrArg some ?_
  simp only [List.cons.injEq, and_true]
  refine ⟨by omega, by omega, by omega, by omega, by omega, by omega⟩

theorem packBytes_bounds (days msInDay : Nat) (_hd : days ≤ 65535) (_hm : msInDay < 86400000) :
    (days / 256 < 256 ∧ days % 256 < 256) ∧
      msInDay / 16777216 < 256 ∧ msInDay / 65536 % 256 < 256 ∧
        msInDay / 256 % 256 < 256 ∧ msInDay % 256 < 256 := by
  refine ⟨⟨by omega, by omega⟩, by omega, by omega, by omega, by omega⟩

theorem bitPacked_fallback_eq (t : Int) (h : 65535 < Int.fdiv t MS_PER_DAY) :
    compressMillisBitPacked t = some ("F_" ++ compressMillisBase62 t) := by
  simp only [compressMillisBitPacked]
  rw [if_pos h]

theorem bitPacked_packed_eq (t : Nat) (h : ¬ 65535 < t / 86400000) :
    compressMillisBitPacked (t : Int) =
      some (String.mk (base64encode (packBytes (t / 86400000) (t % 86400000)))) := by
  have hD : MS_PER_DAY = ((86400000 : Nat) : Int) := by decide
  have hdays : Int.fdiv (t : Int) MS_PER_DAY = ((t / 86400000 : Nat) : Int) := by
    rw [hD, ← Int.ofNat_fdiv]
  have hmod : Int.tmod (t : Int) MS_PER_DAY = ((t % 86400000 : Nat) : Int) := by
    rw [hD, ← Int.ofNat_tmod]
  simp only [compressMillisBitPacked]
  rw [hdays, hmod, if_neg (by exact_mod_cast h),
    if_pos ⟨Int.ofNat_nonneg _, Int.ofNat_nonneg _⟩]
  have h1 : (((t / 86400000 : Nat) : Int)).toNat = t / 86400000 := by omega
  have h2 : (((t % 86400000 : Nat) : Int)).toNat = t % 86400000 := by omega
  rw [h1, h2]

theorem marker_of_fallback (t : Int) :
    startsWithFMarker ("F_" ++ compressMillisBase62 t) = true := by
  simp [startsWithFMarker, compressMillisBase62]

theorem marker_of_packed (days msInDay : Nat) (_hd : days ≤ 65535) (_hm : msInDay < 86400000) :
    startsWithFMarker (String.mk (base64encode (packBytes days msInDay))) = false := by
  have hne : b64char (days / 256 % 4 * 16 + days % 256 / 16) ≠ '_' :=
    b64char_ne_underscore _ (by omega)
  show decide ((base64encode (packBytes days msInDay)).take 2 = ['F', '_']) = false
  have hstruct : (base64encode (packBytes days msInDay)).take 2 =
      [b64char (days / 256 / 4), b64char (days / 256 % 4 * 16 + days % 256 / 16)] := rfl
  rw [hstruct]
  apply decide_eq_false
  intro hEq
  apply hne
  have h23 := (List.cons.injEq _ _ _ _).mp hEq
  exact ((List.cons.injEq _ _ _ _).mp h23.2).1

theorem decode_packed (t : Nat) (h : ¬ 65535 < t / 86400000) :
    decodeBitPacked (String.mk (base64encode (packBytes (t / 86400000) (t % 86400000)))) =
      some (t : Int) := by
  have hm : t % 86400000 < 86400000 := Nat.mod_lt t (by omega)
  have hd : t / 86400000 ≤ 65535 := by omega
  obtain ⟨⟨c1, c2⟩, c3, c4, c5, c6⟩ := packBytes_bounds _ _ hd hm
  simp only [decodeBitPacked]
  rw [marker_of_packed _ _ hd hm]
  simp only [Bool.false_eq_true, if_false]
  show (base64decode (base64encode (packBytes (t / 86400000) (t % 86400000)))).bind _ = _
  simp only [packBytes] at c1 c2 c3 c4 c5 c6 ⊢
  rw [base64_roundtrip_six _ _ _ _ _ _ c1 c2 c3 c4 c5 c6]
  simp only [Option.some_bind]
  show some
      (((t / 86400000 / 256 * 256 + t / 86400000 % 256 : Nat) : Int) * MS_PER_DAY +
        ((t % 86400000 / 16777216 * 16777216 + t % 86400000 / 65536 % 256 * 65536 +
          t % 86400000 / 256 % 256 * 256 + t % 86400000 % 256 : Nat) : Int)) = some (t : Int)
  congr 1
  have hD : MS_PER_DAY = ((86400000 : Nat) : Int) := by decide
  rw [hD]
  omega

theorem roundtrip_bitpacked (t : Nat) :
    ∃ s, compressMillisBitPacked (t : Int) = some s ∧ decodeBitPacked s = some (t : Int) := by
  by_cases hf : 65535 < t / 86400000
  · refine ⟨"F_" ++ compressMillisBase62 (t : Int), ?_, ?_⟩
    · apply bitPacked_fallback_eq
      have hD : MS_PER_DAY = ((86400000 : Nat) : Int) := by decide
      have hdays : Int.fdiv (t : Int) MS_PER_DAY = ((t / 86400000 : Nat) : Int) := by
        rw [hD, ← Int.ofNat_fdiv]
      rw [hdays]
      exact_mod_cast hf
    · simp only [decodeBitPacked]
      rw [marker_of_fallback]
      rw [if_pos rfl]
      have hdata : ("F_" ++ compressMillisBase62 (t : Int)).data.drop 2 =
          jsEncodeList chars62 (t : Int) := rfl
      rw [hdata, decode62_encode62]
      rfl
  · exact ⟨_, bitPacked_packed_eq t hf, decode_packed t hf⟩

/-! ## Round trip of the sequence/delta codec -/

theorem enc62_all_isB62 (n : Nat) :
    ∀ c ∈ jsEncodeList chars62 (n : Int), isB62 c = true := by
  intro c hc
  exact decide_eq_true (mem_of_mem_jsEncodeList chars62 chars62_two_le n c hc)

theorem seriesLoop_take_drop (prev : Int) (l : List Int) :
    (seriesLoop prev l).takeWhile isB62 = [] ∧
      (seriesLoop prev l).dropWhile isB62 = seriesLoop prev l := by
  cases l with
  | nil => exact ⟨rfl, rfl⟩
  | cons t rest =>
    by_cases h : 0 ≤ t - prev
    · simp only [seriesLoop, if_pos h, List.cons_append]
      exact ⟨List.takeWhile_cons_of_neg (by decide), List.dropWhile_cons_of_neg (by decide)⟩
    · simp only [seriesLoop, if_neg h, List.cons_append]
      exact ⟨List.takeWhile_cons_of_neg (by decide), List.dropWhile_cons_of_neg (by decide)⟩

theorem parseDeltasFuel_irrel :
    ∀ f1 f2 prev (cs : List Char), cs.length ≤ f1 → cs.length ≤ f2 →
      parseDeltasFuel f1 prev cs = parseDeltasFuel f2 prev cs := by
  intro f1
  induction f1 using Nat.strong_induction_on with
  | _ f1 ih =>
    intro f2 prev cs h1 h2
    cases cs with
    | nil => cases f1 <;> cases f2 <;> rfl
    | cons c rest =>
      match f1, h1 with
      | a + 1, h1 =>
        match f2, h2 with
        | b + 1, h2 =>
          simp only [parseDeltasFuel]
          by_cases hc : c = '+' ∨ c = '-'
          · rw [if_pos hc, if_pos hc]
            by_cases hrun : (rest.takeWhile isB62).isEmpty
            · rw [if_pos hrun, if_pos hrun]
            · rw [if_neg hrun, if_neg hrun]
              have hlen : (rest.dropWhile isB62).length ≤ rest.length :=
                (List.dropWhile_sublist isB62).length_le
              congr 1
              funext mag
              congr 1
              refine ih a (Nat.lt_succ_self a) b _ _ ?_ ?_
              · simp only [List.length_cons] at h1
                omega
              · simp only [List.length_cons] at h2
                omega
          · rw [if_neg hc, if_neg hc]

theorem parse_seriesLoop :
    ∀ (rest : List Int) (prev : Int) (fuel : Nat),
      (seriesLoop prev rest).length ≤ fuel →
      parseDeltasFuel fuel prev (seriesLoop prev rest) = some rest := by
  intro rest
  induction rest with
  | nil =>
    intro prev fuel _
    cases fuel <;> rfl
  | cons t ts ih =>
    intro prev fuel hf
    have habs : |t - prev| = (((t - prev).natAbs : Nat) : Int) := Int.abs_eq_natAbs _
    have henc := enc62_all_isB62 (t - prev).natAbs
    have hne : jsEncodeList chars62 (((t - prev).natAbs : Nat) : Int) ≠ [] :=
      jsEncodeList_ne_nil chars62 chars62_two_le _
    obtain ⟨htw, hdw⟩ := seriesLoop_take_drop t ts
    by_cases h : 0 ≤ t - prev
    · have he : seriesLoop prev (t :: ts) =
          '+' :: (jsEncodeList chars62 (((t - prev).natAbs : Nat) : Int) ++ seriesLoop t ts) := by
        simp only [seriesLoop, if_pos h, habs, List.cons_append]
      rw [he] at hf ⊢
      match fuel, hf with
      | f + 1, hf =>
        simp only [parseDeltasFuel]
        rw [if_pos (Or.inl trivial)]
        rw [List.takeWhile_append_of_pos henc, htw, List.append_nil]
        rw [if_neg (by simpa [List.isEmpty_iff] using hne)]
        rw [decode62_encode62]
        simp only [Option.some_bind, if_true]
        rw [List.dropWhile_append_of_pos henc, hdw]
        have hv : prev + (((t - prev).natAbs : Nat) : Int) = t := by omega
        rw [hv]
        rw [ih t f (by simp only [List.length_cons, List.length_append] at hf; omega)]
        rfl
    · have he : seriesLoop prev (t :: ts) =
          '-' :: (jsEncodeList chars62 (((t - prev).natAbs : Nat) : Int) ++ seriesLoop t ts) := by
        simp only [seriesLoop, if_neg h, habs, List.cons_append]
      rw [he] at hf ⊢
      match fuel, hf with
      | f + 1, hf =>
        simp only [parseDeltasFuel]
        rw [if_pos (Or.inr trivial)]
        rw [List.takeWhile_append_of_pos henc, htw, List.append_nil]
        rw [if_neg (by simpa [List.isEmpty_iff] using hne)]
        rw [decode62_encode62]
        simp only [Option.some_bind]
        rw [if_neg (by decide)]
        rw [List.dropWhile_append_of_pos henc, hdw]
        have hv : prev - (((t - prev).natAbs : Nat) : Int) = t := by omega
        rw [hv]
        rw [ih t f (by simp only [List.length_cons, List.length_append] at hf; omega)]
        rfl

theorem roundtrip_series (t0 : Nat) (rest : List Int) :
    decodeSeries (compressTimestampSeries ((t0 : Int) :: rest)) =
      some ((t0 : Int) :: rest) := by
  have henc := enc62_all_isB62 t0
  have hne : jsEncodeList chars62 (t0 : Int) ≠ [] :=
    jsEncodeList_ne_nil chars62 chars62_two_le t0
  obtain ⟨htw, hdw⟩ := seriesLoop_take_drop (t0 : Int) rest
  have hdat : (compressTimestampSeries ((t0 : Int) :: rest)).data =
      jsEncodeList chars62 (t0 : Int) ++ seriesLoop (t0 : Int) rest := rfl
  simp only [decodeSeries, hdat]
  rw [List.takeWhile_append_of_pos henc, htw, List.append_nil,
    List.dropWhile_append_of_pos henc, hdw]
  rw [if_neg (by simp [List.isEmpty_iff, hne])]
  rw [if_neg (by simpa [List.isEmpty_iff] using hne)]
  rw [decode62_encode62]
  simp only [Option.some_bind]
  rw [parse_seriesLoop rest (t0 : Int) _ le_rfl]
  rfl

/-! ## Closed-form shape of the sequence encoding -/

theorem seriesSpecDeltas_data (prev : Int) (l : List Int) :
    (seriesSpecDeltas prev l).data = seriesLoop prev l := by
  induction l generalizing prev with
  | nil => rfl
  | cons t ts ih =>
    show (((if 0 ≤ t - prev then "+" else "-") ++ compressMillisBase62 |t - prev|) ++
        seriesSpecDeltas t ts).data = _
    rw [String.data_append, String.data_append, ih]
    by_cases h : 0 ≤ t - prev
    · have h' : prev ≤ t := by omega
      simp [seriesLoop, if_pos h, h', compressMillisBase62]
    · have h' : ¬ prev ≤ t := by omega
      simp [seriesLoop, if_neg h, h', compressMillisBase62]

/-! ## Claim theorems -/

/-- C1.  For every valid timestamp and every codec of §4 — Base36/62/94 direct
(valid: non-negative), reference-relative (valid: any integer, any reference),
split day/time (valid: non-negative, any fixed timezone offset), fixed-width
binary including the `F_` fallback path (valid: non-negative), and the
sequence codec for any non-empty series whose first element is non-negative —
the spec-modelled decoder is an exact left inverse of the source encoder:
`decode (encode t) = t` with no precision loss. -/
theorem roundtrip_all_codecs :
    (∀ t : Nat, decodeBase36 (compressMillisCustom (t : Int)) = some (t : Int)) ∧
    (∀ t : Nat, decodeBase62 (compressMillisBase62 (t : Int)) = some (t : Int)) ∧
    (∀ t : Nat, decodeBase94 (compressMillisBase94 (t : Int)) = some (t : Int)) ∧
    (∀ t ref : Int, decodeVariable ref (compressMillisVariable t ref) = some t) ∧
    (∀ tz : Int, ∀ t : Nat, decodeSplit tz (compressSplitDaysTime tz (t : Int)) = some (t : Int)) ∧
    (∀ t : Nat, ∃ s, compressMillisBitPacked (t : Int) = some s ∧
      decodeBitPacked s = some (t : Int)) ∧
    (∀ t0 : Nat, ∀ rest : List Int,
      decodeSeries (compressTimestampSeries ((t0 : Int) :: rest)) = some ((t0 : Int) :: rest)) :=
  ⟨roundtrip_base36, roundtrip_base62, roundtrip_base94, roundtrip_variable,
    roundtrip_split, roundtrip_bitpacked, roundtrip_series⟩

/-- C3.  The sequence/delta encoding of a non-empty series is the Base62
encoding of the first element followed, for each subsequent element, by one
sign character (`+` when the delta is non-negative, `-` otherwise) and the
Base62 encoding of the delta's absolute value, with no separator; in
particular the three-element example of §8 evaluates to
`encode62(1700000000000) + "+" + encode62(5000) + "+" + encode62(7000)`. -/
theorem series_delta_format :
    (∀ (t0 : Int) (rest : List Int),
      compressTimestampSeries (t0 :: rest) = compressMillisBase62 t0 ++ seriesSpecDeltas t0 rest) ∧
    compressTimestampSeries [1700000000000, 1700000005000, 1700000012000] =
      compressMillisBase62 1700000000000 ++ "+" ++ compressMillisBase62 5000 ++
        "+" ++ compressMillisBase62 7000 := by
  constructor
  · intro t0 rest
    show String.mk (jsEncodeList chars62 t0 ++ seriesLoop t0 rest) =
      compressMillisBase62 t0 ++ seriesSpecDeltas t0 rest
    show String.mk (jsEncodeList chars62 t0 ++ seriesLoop t0 rest) =
      String.mk (jsEncodeList chars62 t0 ++ (seriesSpecDeltas t0 rest).data)
    exact congrArg String.mk
      (congrArg (jsEncodeList chars62 t0 ++ ·) (seriesSpecDeltas_data t0 rest).symm)
  · decide

/-- C6.  The reference-relative encoding is one sign character (`+` when
`ts - referenceEpoch ≥ 0`, `-` otherwise) followed by the Base62 encoding of
`|ts - referenceEpoch|`; the reference epoch itself encodes to `"+0"`, and one
millisecond before the default reference epoch (1577836800000) encodes to a
string starting with `-`. -/
theorem variable_sign_format :
    (∀ ts ref : Int, compressMillisVariable ts ref =
      (if 0 ≤ ts - ref then "+" else "-") ++ compressMillisBase62 |ts - ref|) ∧
    (∀ ref : Int, compressMillisVariable ref ref = "+0") ∧
    compressMillisVariableDefault 1577836800000 = "+0" ∧
    (compressMillisVariableDefault 1577836799999).data.head? = some '-' := by
  refine ⟨fun ts ref => ?_, fun ref => ?_, by decide, by decide⟩
  · by_cases h : 0 ≤ ts - ref
    · simp only [compressMillisVariable, if_pos h]
      rfl
    · simp only [compressMillisVariable, if_neg h]
      rfl
  · simp only [compressMillisVariable, sub_self, abs_zero, if_pos (le_refl (0 : Int))]
    rfl

/-- C7.  Every character of the Base62 encoding of a non-negative integer
belongs to the 62-character alphabet; in particular the encoding never
contains `+`, `-`, or `:`, so the delta concatenation and the `:`-joined
split format parse unambiguously. -/
theorem base62_output_alphabet :
    ∀ v : Nat, (compressMillisBase62 (v : Int)).data ⊆ chars62 ∧
      '+' ∉ (compressMillisBase62 (v : Int)).data ∧
      '-' ∉ (compressMillisBase62 (v : Int)).data ∧
      ':' ∉ (compressMillisBase62 (v : Int)).data := by
  intro v
  have hsub : (compressMillisBase62 (v : Int)).data ⊆ chars62 := fun c hc =>
    mem_of_mem_jsEncodeList chars62 chars62_two_le v c hc
  refine ⟨hsub, fun h => ?_, fun h => ?_, fun h => ?_⟩
  · exact (by decide : '+' ∉ chars62) (hsub h)
  · exact (by decide : '-' ∉ chars62) (hsub h)
  · exact (by decide : ':' ∉ chars62) (hsub h)

/-- C7 witness: the alphabet-closure facts evaluated at `v = 1700000000000`. -/
theorem base62_output_alphabet_witness :
    ':' ∉ (compressMillisBase62 ((1700000000000 : Nat) : Int)).data :=
  (base62_output_alphabet 1700000000000).2.2.2

/-- C10.  The Base62 encoder is injective on the non-negative integers: two
distinct non-negative inputs always produce distinct encodings, which is what
makes a left-inverse decoder possible. -/
theorem base62_injective :
    ∀ v w : Nat, compressMillisBase62 (v : Int) = compressMillisBase62 (w : Int) → v = w := by
  intro v w h
  have h2 := congrArg decodeBase62 h
  rw [roundtrip_base62 v, roundtrip_base62 w] at h2
  have h3 : (v : Int) = (w : Int) := Option.some.inj h2
  exact_mod_cast h3

/-- C10 witness: the injectivity theorem applied at a concrete input. -/
theorem base62_injective_witness : (1700000000000 : Nat) = 1700000000000 :=
  base62_injective 1700000000000 1700000000000 rfl

/-- C2.  The fixed-width binary codec emits the `F_` fallback (marker plus
Base62 of the raw timestamp) exactly when `daysSinceEpoch = floor(ts/86400000)`
exceeds 65535: whenever the day count is larger the fallback string is
produced, whenever a non-negative timestamp stays within 65535 days the
output is the 6-byte packed form, which never carries the marker; at the
boundary, exactly 65535 days packs to the base64 string `"//8AAAAA"` and
65536 days triggers the fallback. -/
theorem bitPacked_fallback_boundary (ts : Int) :
    (65535 < Int.fdiv ts MS_PER_DAY →
      compressMillisBitPacked ts = some ("F_" ++ compressMillisBase62 ts)) ∧
    (0 ≤ ts → Int.fdiv ts MS_PER_DAY ≤ 65535 →
      ∃ s, compressMillisBitPacked ts = some s ∧ startsWithFMarker s = false) ∧
    compressMillisBitPacked (65535 * 86400000) = some "//8AAAAA" ∧
    startsWithFMarker "//8AAAAA" = false ∧
    compressMillisBitPacked (65536 * 86400000) =
      some ("F_" ++ compressMillisBase62 (65536 * 86400000)) := by
  refine ⟨bitPacked_fallback_eq ts, ?_, by decide, by decide, by decide⟩
  intro hts hle
  obtain ⟨t, rfl⟩ := Int.eq_ofNat_of_zero_le hts
  have hD : MS_PER_DAY = ((86400000 : Nat) : Int) := by decide
  have hdays : Int.fdiv (t : Int) MS_PER_DAY = ((t / 86400000 : Nat) : Int) := by
    rw [hD, ← Int.ofNat_fdiv]
  have h' : ¬ 65535 < t / 86400000 := by
    rw [hdays] at hle
    exact_mod_cast not_lt.mpr hle
  exact ⟨_, bitPacked_packed_eq t h',
    marker_of_packed _ _ (by omega) (Nat.mod_lt t (by omega))⟩

/-- C2 witness: the fallback and packed branches of the theorem evaluated at
the two boundary timestamps. -/
theorem bitPacked_fallback_boundary_witness :
    compressMillisBitPacked (65536 * 86400000) =
      some ("F_" ++ compressMillisBase62 (65536 * 86400000)) :=
  (bitPacked_fallback_boundary (65536 * 86400000)).1 (by decide)

/-! ## Behaviour of the digit loop on negative input -/

theorem jsEncodeList_neg (chars : List Char) (h2 : 2 ≤ chars.length)
    (ts : Int) (hts : ts < 0) :
    jsEncodeList chars ts =
      if (chars.length : Int) ∣ ts then [chars.getD 0 '?'] else "undefined".data := by
  have ht : ts.toNat = 0 := by omega
  show jsEncodeFuel chars (ts.toNat + 1) ts = _
  rw [ht]
  simp only [jsEncodeFuel]
  have hB : (0 : Int) < (chars.length : Int) := by exact_mod_cast (by omega : 0 < chars.length)
  have hq : ¬ 0 < Int.fdiv ts (chars.length : Int) := by
    have := Int.fdiv_neg' hts hB
    omega
  rw [if_neg hq, List.nil_append]
  by_cases hdvd : (chars.length : Int) ∣ ts
  · rw [if_pos hdvd, Int.tmod_eq_zero_of_dvd hdvd]
    simp only [jsCharAt]
    rw [if_pos ⟨le_refl 0, by omega⟩]
    rfl
  · rw [if_neg hdvd]
    have h1 : 0 ≤ Int.tmod (-ts) (chars.length : Int) := Int.tmod_nonneg _ (by omega)
    have h2' : Int.tmod (-ts) (chars.length : Int) = -Int.tmod ts (chars.length : Int) := by
      rw [Int.tmod_def, Int.tmod_def, Int.neg_tdiv]
      ring
    have hne : Int.tmod ts (chars.length : Int) ≠ 0 := fun h =>
      hdvd (Int.dvd_of_tmod_eq_zero h)
    simp only [jsCharAt]
    rw [if_neg]
    intro hcond
    omega

/-- C5 counterexample: for the negative timestamp -5, none of the direct
codecs fails — each silently returns the corrupted string `"undefined"`
(the do-while loop runs once with an out-of-range array index). -/
theorem direct_codecs_negative_counterexample :
    compressMillisBase62 (-5) = "undefined" ∧
      compressMillisBase94 (-5) = "undefined" ∧
      compressMillisCustom (-5) = "undefined" := by decide

/-- C5 amended: for every negative timestamp the direct codecs do not fail
with an error; the digit loop executes exactly once, producing the corrupted
string `"undefined"` (out-of-range index) — or `"0"` when the timestamp is an
exact negative multiple of the base, because the JS remainder is then `-0`,
which indexes the first alphabet character. -/
theorem direct_codecs_negative_amended (ts : Int) (hts : ts < 0) :
    compressMillisBase62 ts = (if (62 : Int) ∣ ts then "0" else "undefined") ∧
      compressMillisBase94 ts = (if (90 : Int) ∣ ts then "0" else "undefined") ∧
      compressMillisCustom ts = (if (36 : Int) ∣ ts then "0" else "undefined") := by
  refine ⟨?_, ?_, ?_⟩
  · show String.mk (jsEncodeList chars62 ts) = _
    rw [jsEncodeList_neg chars62 chars62_two_le ts hts,
      (by decide : ((chars62.length : Nat) : Int) = 62)]
    by_cases hdvd : (62 : Int) ∣ ts
    · rw [if_pos hdvd, if_pos hdvd]
      decide
    · rw [if_neg hdvd, if_neg hdvd]
  · show String.mk (jsEncodeList chars94 ts) = _
    rw [jsEncodeList_neg chars94 chars94_two_le ts hts,
      (by decide : ((chars94.length : Nat) : Int) = 90)]
    by_cases hdvd : (90 : Int) ∣ ts
    · rw [if_pos hdvd, if_pos hdvd]
      decide
    · rw [if_neg hdvd, if_neg hdvd]
  · show String.mk (jsEncodeList chars36 ts) = _
    rw [jsEncodeList_neg chars36 chars36_two_le ts hts,
      (by decide : ((chars36.length : Nat) : Int) = 36)]
    by_cases hdvd : (36 : Int) ∣ ts
    · rw [if_pos hdvd, if_pos hdvd]
      decide
    · rw [if_neg hdvd, if_neg hdvd]

/-- C5 amended witness: the amended theorem applied at -62, a negative
multiple of 62, where the Base62 codec silently returns `"0"`. -/
theorem direct_codecs_negative_amended_witness :
    compressMillisBase62 (-62) = "0" := by
  have h := (direct_codecs_negative_amended (-62) (by decide)).1
  rw [if_pos (by decide)] at h
  exact h

/-- C4 counterexample: the alphabet string of `compressMillisBase94` has 90
characters, not 94 — 95 printable ASCII characters minus the five reserved
ones leave 90, and the source's `base = chars.length` is therefore 90. -/
theorem base94_alphabet_counterexample :
    chars94.length = 90 ∧ chars94.length ≠ 94 := by decide

/-- C4 amended: the `compressMillisBase94` alphabet consists of exactly 90
distinct characters — precisely the printable ASCII characters (codes 33–126)
minus double-quote, single-quote, backslash and backtick — so the positional
encoding it performs is base-90, the length of the alphabet string (the
source's `// 94` comments miscount): `encode(94)` is the two-digit string
`"14"` (1·90 + 4), while a true base-94 encoder would yield `"10"`. -/
theorem base94_alphabet_amended :
    chars94.length = 90 ∧ chars94.Nodup ∧
      (chars94.all fun c => decide (c ∈ printableNonReserved)) = true ∧
      (printableNonReserved.all fun c => decide (c ∈ chars94)) = true ∧
      compressMillisBase94 94 = "14" ∧ compressMillisBase94 90 = "10" := by decide

/-- C9 counterexample: at the pre-epoch timestamp -1 (any timezone offset; 0
shown), `millisecondsToDaysAndTime` returns `daysSinceEpoch = -1`, a negative
value. -/
theorem daysAndTime_negative_counterexample :
    (millisecondsToDaysAndTime 0 (-1)).1 = -1 ∧
      ¬ 0 ≤ (millisecondsToDaysAndTime 0 (-1)).1 := by decide

/-- C9 amended: for every timestamp and fixed timezone offset,
`millisSinceMidnight` lies in `[0, 86400000)` and
`daysSinceEpoch = floor(ts / 86400000)`, which is non-negative exactly for
non-negative timestamps and negative for pre-epoch ones. -/
theorem daysAndTime_range (tzOffset ts : Int) :
    0 ≤ (millisecondsToDaysAndTime tzOffset ts).2 ∧
      (millisecondsToDaysAndTime tzOffset ts).2 < 86400000 ∧
      (millisecondsToDaysAndTime tzOffset ts).1 = Int.fdiv ts MS_PER_DAY ∧
      (0 ≤ ts → 0 ≤ (millisecondsToDaysAndTime tzOffset ts).1) ∧
      (ts < 0 → (millisecondsToDaysAndTime tzOffset ts).1 < 0) := by
  refine ⟨Int.emod_nonneg _ (by decide), ?_, rfl, ?_, ?_⟩
  · have h := Int.emod_lt_of_pos (ts + tzOffset) (show (0 : Int) < MS_PER_DAY by decide)
    have hD : MS_PER_DAY = 86400000 := by decide
    show (ts + tzOffset) % MS_PER_DAY < 86400000
    omega
  · intro h
    exact Int.fdiv_nonneg h (by decide)
  · intro h
    exact Int.fdiv_neg' h (by decide)

/-- C9 amended witness: the range facts evaluated at `tzOffset = 0`,
`ts = -1`. -/
theorem daysAndTime_range_witness : (millisecondsToDaysAndTime 0 (-1)).1 < 0 :=
  (daysAndTime_range 0 (-1)).2.2.2.2 (by decide)

/-! ## Monotonicity of the positional encoding in the alphabet-index order -/

theorem chars62_indexOf_getD : ∀ i, i < 62 → chars62.indexOf (chars62.getD i '?') = i := by
  decide

theorem valBE_append_one (B : Nat) (l : List Nat) (d : Nat) :
    valBE B (l ++ [d]) = valBE B l * B + d := by
  unfold valBE
  rw [List.foldl_append]
  rfl

theorem valBE_cons_aux (B : Nat) (l : List Nat) :
    ∀ acc, l.foldl (fun a d => a * B + d) acc = acc * B ^ l.length + valBE B l := by
  induction l with
  | nil =>
    intro acc
    simp [valBE]
  | cons x l ih =>
    intro acc
    show l.foldl _ (acc * B + x) = acc * B ^ (x :: l).length + valBE B (x :: l)
    rw [ih (acc * B + x)]
    have h2 : valBE B (x :: l) = x * B ^ l.length + valBE B l := by
      show l.foldl _ (0 * B + x) = _
      rw [ih (0 * B + x), Nat.zero_mul, Nat.zero_add]
    rw [h2, List.length_cons]
    ring

theorem valBE_cons (B x : Nat) (l : List Nat) :
    valBE B (x :: l) = x * B ^ l.length + valBE B l := by
  show l.foldl _ (0 * B + x) = _
  rw [valBE_cons_aux B l (0 * B + x), Nat.zero_mul, Nat.zero_add]

theorem valBE_lt (B : Nat) (l : List Nat) (h : ∀ d ∈ l, d < B) :
    valBE B l < B ^ l.length := by
  induction l with
  | nil => simp [valBE]
  | cons x l ih =>
    rw [valBE_cons, List.length_cons, pow_succ]
    have hx : x < B := h x (List.mem_cons_self x l)
    have hv : valBE B l < B ^ l.length := ih fun d hd => h d (List.mem_cons_of_mem x hd)
    calc x * B ^ l.length + valBE B l
        < x * B ^ l.length + B ^ l.length := Nat.add_lt_add_left hv _
      _ = (x + 1) * B ^ l.length := by ring
      _ ≤ B * B ^ l.length := Nat.mul_le_mul_right _ (by omega)
      _ = B ^ l.length * B := by ring

theorem valBE_le_lex (B : Nat) :
    ∀ la lb : List Nat, la.length = lb.length →
      (∀ d ∈ la, d < B) → (∀ d ∈ lb, d < B) →
      valBE B la ≤ valBE B lb → la = lb ∨ List.Lex (· < ·) la lb := by
  intro la
  induction la with
  | nil =>
    intro lb hlen _ _ _
    left
    exact (List.length_eq_zero.mp hlen.symm).symm
  | cons x la ih =>
    intro lb hlen ha hb hv
    match lb, hlen with
    | y :: lb, hlen =>
      have hlen' : la.length = lb.length := by simpa using hlen
      rcases lt_trichotomy x y with h | h | h
      · right
        exact List.Lex.rel h
      · subst h
        rw [valBE_cons, valBE_cons, hlen'] at hv
        have hv' : valBE B la ≤ valBE B lb := Nat.le_of_add_le_add_left hv
        rcases ih lb hlen' (fun d hd => ha d (List.mem_cons_of_mem x hd))
            (fun d hd => hb d (List.mem_cons_of_mem x hd)) hv' with heq | hlex
        · left
          rw [heq]
        · right
          exact List.Lex.cons hlex
      · exfalso
        rw [valBE_cons, valBE_cons, hlen'] at hv
        have h1 : valBE B lb < B ^ lb.length :=
          valBE_lt B lb fun d hd => hb d (List.mem_cons_of_mem y hd)
        have h2 : y * B ^ lb.length + valBE B lb < (y + 1) * B ^ lb.length := by
          have := Nat.add_lt_add_left h1 (y * B ^ lb.length)
          calc y * B ^ lb.length + valBE B lb
              < y * B ^ lb.length + B ^ lb.length := this
            _ = (y + 1) * B ^ lb.length := by ring
        have h3 : (y + 1) * B ^ lb.length ≤ x * B ^ lb.length :=
          Nat.mul_le_mul_right _ (by omega)
        have h4 : 0 ≤ valBE B la := Nat.zero_le _
        linarith

theorem enc62_idx_digits (n : Nat) :
    ∀ d ∈ (jsEncodeList chars62 (n : Int)).map (fun c => chars62.indexOf c), d < 62 := by
  intro d hd
  rw [List.mem_map] at hd
  obtain ⟨c, hc, rfl⟩ := hd
  have hmem : c ∈ chars62 := mem_of_mem_jsEncodeList chars62 chars62_two_le n c hc
  have hlt := List.indexOf_lt_length.mpr hmem
  have h62 : chars62.length = 62 := by decide
  omega

theorem enc62_idx_val (n : Nat) :
    valBE 62 ((jsEncodeList chars62 (n : Int)).map fun c => chars62.indexOf c) = n := by
  induction n using Nat.strong_induction_on with
  | _ n ih =>
    rw [jsEncodeList_nat chars62 chars62_two_le n,
      (by decide : chars62.length = 62)]
    rw [List.map_append]
    simp only [List.map_cons, List.map_nil]
    rw [valBE_append_one, chars62_indexOf_getD _ (Nat.mod_lt n (by omega))]
    by_cases hq : 0 < n / 62
    · rw [if_pos hq]
      have hn0 : 0 < n := by
        rcases Nat.eq_zero_or_pos n with h0 | h0
        · subst h0
          simp at hq
        · exact h0
      rw [ih (n / 62) (Nat.div_lt_self hn0 (by omega))]
      exact Nat.div_add_mod' n 62
    · rw [if_neg hq]
      have hlt : n < 62 := by
        rcases Nat.lt_or_ge n 62 with h | h
        · exact h
        · exact absurd (Nat.div_pos h (by omega)) hq
      show valBE 62 [] * 62 + n % 62 = n
      simp [valBE, Nat.mod_eq_of_lt hlt]

/-- C8.  For non-negative integers `a ≤ b` whose Base62 encodings have the
same length, `encode(a)` is lexicographically at most `encode(b)` under the
alphabet's index ordering. -/
theorem base62_monotone (a b : Nat) (hab : a ≤ b)
    (hlen : (compressMillisBase62 (a : Int)).length = (compressMillisBase62 (b : Int)).length) :
    alphaLexLe chars62 (compressMillisBase62 (a : Int)).data
      (compressMillisBase62 (b : Int)).data := by
  have hlen' : (jsEncodeList chars62 (a : Int)).length =
      (jsEncodeList chars62 (b : Int)).length := hlen
  unfold alphaLexLe
  apply valBE_le_lex 62
  · simpa using hlen'
  · exact enc62_idx_digits a
  · exact enc62_idx_digits b
  · show valBE 62 ((jsEncodeList chars62 (a : Int)).map fun c => chars62.indexOf c) ≤
      valBE 62 ((jsEncodeList chars62 (b : Int)).map fun c => chars62.indexOf c)
    rw [enc62_idx_val a, enc62_idx_val b]
    exact hab

/-- C8 witness: the monotonicity theorem at `a = 100`, `b = 200`, two values
with equal-length (two-character) Base62 encodings. -/
theorem base62_monotone_witness :
    alphaLexLe chars62 (compressMillisBase62 ((100 : Nat) : Int)).data
      (compressMillisBase62 ((200 : Nat) : Int)).data :=
  base62_monotone 100 200 (by decide) (by decide)
